import Mathlib

/-!
Verification development for the t-digest FFI binding of
timescale/timescaledb-toolkit.

Part 1 embeds the Python wrapper classes of `docs/examples/tdigest.py`
(`TDigest` and `TDigest.Builder`) as an explicit state machine over the two
attributes the code manipulates: `real_pointer` (the native handle, held until
released) and the `pointer` attribute (present only between `__enter__` and
`__exit__`).

Part 2 models the t-digest sketch itself (Builder / Digest / quantile / merge /
codec).  The sketch's implementation is not part of this tree — only its FFI
callers are — so those definitions are modelled from the specification, as
marked on each definition.
-/

namespace PyWrap

/-- State of a Python wrapper object (`TDigest.Builder` or `TDigest` in
`docs/examples/tdigest.py`).  `real_pointer` models the attribute of the same
name (`none` is Python `None`); `pointer` models presence of the `pointer`
attribute: `none` means the attribute does not exist (access raises
`AttributeError`), `some v` means it exists and holds `v`. -/
structure Wrapper where
  real_pointer : Option ℕ
  pointer : Option (Option ℕ)
deriving DecidableEq

/-- The Python exceptions the wrapper can raise on the modelled paths. -/
inductive PyError where
  | attributeError
deriving DecidableEq

/-- `__init__(self, pointer)` (tdigest.py lines 24-25 and 53-54): store the
native pointer in `real_pointer`; the `pointer` attribute does not exist yet. -/
def initWrapper (p : Option ℕ) : Wrapper := ⟨p, none⟩

/-- `__enter__` (lines 27-29 and 56-58): copy `real_pointer` into the `pointer`
attribute. -/
def enterStep (s : Wrapper) : Wrapper := { s with pointer := some s.real_pointer }

/-- `__del__` (lines 37-39 and 66-68): call the native free function iff
`real_pointer is not None`.  `real_pointer` itself is left unchanged.  Returns
the state together with the number of native free calls made. -/
def delStep (s : Wrapper) : Wrapper × ℕ :=
  if s.real_pointer = none then (s, 0) else (s, 1)

/-- `__exit__` (lines 31-35 and 60-64): run `__del__`, then set
`real_pointer = None` and delete the `pointer` attribute if present. -/
def exitStep (s : Wrapper) : Wrapper × ℕ := (⟨none, none⟩, (delStep s).2)

/-- `push(self, value)` (lines 44-45): reads `self.pointer`, so it raises
`AttributeError` when the attribute is absent; otherwise it forwards to the
native push and leaves the wrapper state unchanged. -/
def push (s : Wrapper) : Except PyError Wrapper :=
  match s.pointer with
  | none => .error .attributeError
  | some _ => .ok s

/-- `build(self)` (lines 47-51): reads `self.pointer` (raising `AttributeError`
when absent), calls the native build, then sets `real_pointer = None` and
deletes the `pointer` attribute.  Returns the new state and the pointer that was
handed to the resulting `TDigest`. -/
def build (s : Wrapper) : Except PyError (Wrapper × Option ℕ) :=
  match s.pointer with
  | none => .error .attributeError
  | some p => .ok (⟨none, none⟩, p)

/-- `format_for_postgres(self)` (lines 70-75): reads `self.pointer`, so it
raises `AttributeError` when the attribute is absent; the wrapper state is
unchanged. -/
def format_for_postgres (s : Wrapper) : Except PyError Wrapper :=
  match s.pointer with
  | none => .error .attributeError
  | some _ => .ok s

/-- Externally observable events on a wrapper: with-block entry and exit,
an invocation of `__del__` (explicit call or garbage-collection finalization),
and the method calls. -/
inductive Ev where
  | enter
  | exit
  | del
  | push
  | build
  | format
deriving DecidableEq

/-- One event against a wrapper state, returning the successor state and the
number of native free calls the event performed.  Methods that raise
`AttributeError` leave the state unchanged. -/
def step (s : Wrapper) : Ev → Wrapper × ℕ
  | .enter => (enterStep s, 0)
  | .exit => exitStep s
  | .del => delStep s
  | .push => (s, 0)
  | .build =>
      match build s with
      | .ok (s', _) => (s', 0)
      | .error _ => (s, 0)
  | .format => (s, 0)

/-- Run a trace of events, accumulating the number of native free calls. -/
def run : Wrapper → List Ev → Wrapper × ℕ
  | s, [] => (s, 0)
  | s, e :: es => ((run (step s e).1 es).1, (step s e).2 + (run (step s e).1 es).2)

/-- The number of native free calls that remain possible on a state: `1` while
`real_pointer` still holds a handle, `0` once it is `None`. -/
def live (s : Wrapper) : ℕ := if s.real_pointer = none then 0 else 1

end PyWrap

namespace TD

/-!
The t-digest sketch itself.  The Rust implementation behind the FFI is not part
of this tree (only its callers and declarations are), so the definitions below
are modelled from the specification.  Finite `float64` values crossing the
boundary are modelled as the exact rationals they denote; the specification
leaves the exact scale-function constants tunable, and the standard quadratic
(k1-style) capacity bound is adopted where a concrete bound is needed.
-/

/-- Modelled from the spec (§3): a centroid is a weighted cluster center,
`{mean: float64, weight: uint64 ≥ 1}`. -/
structure Centroid where
  mean : ℚ
  weight : ℕ
deriving DecidableEq

/-- Modelled from the spec (§3): a digest is
`{compression, centroids sorted ascending by mean, total_weight, min, max}`. -/
structure Digest where
  compression : ℕ
  centroids : List Centroid
  total_weight : ℕ
  dmin : ℚ
  dmax : ℚ
deriving DecidableEq

/-- Modelled from the spec (§3): a builder owns the compression parameter and a
buffer of raw pushed values, compressed in batch by `build()`. -/
structure Builder where
  compression : ℕ
  buffer : List ℚ
deriving DecidableEq

/-- Modelled from the spec (§7): the recoverable logical error taxonomy. -/
inductive TdError where
  | invalidParameter
  | nonFiniteValue
  | parseError
deriving DecidableEq

/-- Modelled from the spec (§6): a `float64` value crossing the boundary is
either a finite value (modelled as the exact rational it denotes) or one of the
non-finite values NaN, +∞, −∞. -/
inductive F64 where
  | finite (q : ℚ)
  | nan
  | posInf
  | negInf
deriving DecidableEq

/-- Whether a boundary value is finite. -/
def F64.isFinite : F64 → Bool
  | .finite _ => true
  | _ => false

/-- Modelled from the spec (§6): `new_builder(compression)` rejects
`compression == 0` with `InvalidParameter` and otherwise returns a fresh
Builder with an empty buffer. -/
def new_builder (compression : ℕ) : Except TdError Builder :=
  if compression = 0 then .error .invalidParameter
  else .ok ⟨compression, []⟩

/-- Modelled from the spec (§6): `push(builder, value)` rejects non-finite
input with `NonFiniteValue`; a finite value is appended to the builder's
pending buffer. -/
def Builder.push (b : Builder) (v : F64) : Except TdError Builder :=
  match v with
  | .finite q => .ok ⟨b.compression, b.buffer ++ [q]⟩
  | _ => .error .nonFiniteValue

/-- Push a whole list of values, stopping at the first failure. -/
def pushAll : Except TdError Builder → List F64 → Except TdError Builder
  | .error e, _ => .error e
  | .ok b, [] => .ok b
  | .ok b, v :: vs => pushAll (b.push v) vs

/-- Modelled from the spec (§4.1): the scale-function capacity test.  A
(tentatively merged) centroid of weight `w` whose cumulative-weight interval
is `[cum, cum + w]` out of total weight `W` is within capacity when
`δ * w ≤ 4 * W * qmid * (1 - qmid)`, where `qmid = (cum + w/2) / W` is the
midpoint of the interval in cumulative-fraction space — the standard quadratic
scale-function bound, small at the tails and largest at the median. -/
def absorbable (δ W : ℕ) (cum : ℚ) (w : ℕ) : Bool :=
  let qmid : ℚ := (cum + (w : ℚ) / 2) / (W : ℚ)
  decide ((δ : ℚ) * (w : ℚ) ≤ 4 * (W : ℚ) * qmid * (1 - qmid))

/-- Modelled from the spec (§4.2 step 2): absorbing merges the weighted means:
`mean' = (mean*weight + x*xweight)/(weight + xweight)`, `weight' = weight + xweight`. -/
def combine (a b : Centroid) : Centroid :=
  ⟨(a.mean * (a.weight : ℚ) + b.mean * (b.weight : ℚ)) / ((a.weight : ℚ) + (b.weight : ℚ)),
   a.weight + b.weight⟩

/-- Modelled from the spec (§4.3): the compression pass over points in
ascending-mean order.  `cum` is the total weight strictly before the current
centroid `cur`; each next point is absorbed into `cur` when the combined weight
stays within the scale-function capacity at the true cumulative position, and
otherwise starts a new centroid. -/
def mergeGo (δ W : ℕ) (cum : ℚ) (cur : Centroid) : List Centroid → List Centroid
  | [] => [cur]
  | p :: ps =>
      if absorbable δ W cum (cur.weight + p.weight) then
        mergeGo δ W cum (combine cur p) ps
      else
        cur :: mergeGo δ W (cum + (cur.weight : ℚ)) p ps

/-- Modelled from the spec (§4.3): compress a list of points already sorted
ascending by mean, with total weight `W`, for compression parameter `δ`. -/
def mergeSorted (δ W : ℕ) : List Centroid → List Centroid
  | [] => []
  | p :: ps => mergeGo δ W 0 p ps

/-- Sort raw values ascending (the deterministic processing order §4.3
requires). -/
def sortAsc (l : List ℚ) : List ℚ := l.insertionSort (· ≤ ·)

/-- Modelled from the spec (§3, §4.3): `build()` runs a final compression pass
over the buffered values in ascending order and yields the immutable digest;
`min`/`max` are the exact extrema of the inputs and `total_weight` their
count.  Building from an empty buffer yields the empty digest. -/
def Builder.build (b : Builder) : Digest :=
  match sortAsc b.buffer with
  | [] => ⟨b.compression, [], 0, 0, 0⟩
  | x :: xs =>
      ⟨b.compression,
       mergeSorted b.compression (x :: xs).length ((x :: xs).map (fun v => Centroid.mk v 1)),
       (x :: xs).length,
       x,
       xs.getLastD x⟩

/-- Sort centroids ascending by mean. -/
def sortCentroids (l : List Centroid) : List Centroid :=
  l.insertionSort (fun a b => a.mean ≤ b.mean)

/-- Modelled from the spec (§4.4): `merge(target, source)` pools the two
centroid lists, recompresses at the target's compression, adds the weights and
widens the extrema; the source is not touched (the model is functional, so
`source` trivially remains the caller's unchanged value). -/
def Digest.merge (target source : Digest) : Digest :=
  ⟨target.compression,
   mergeSorted target.compression (target.total_weight + source.total_weight)
     (sortCentroids (target.centroids ++ source.centroids)),
   target.total_weight + source.total_weight,
   min target.dmin source.dmin,
   max target.dmax source.dmax⟩

/-- Sum of centroid weights. -/
def weightSum (l : List Centroid) : ℕ := (l.map Centroid.weight).sum

/-- Modelled from the spec (§4.5): the quantile walk.  `t` is the target
cumulative weight, `cum` the weight accumulated strictly before the current
centroid, `prev` the previous centroid's mean (initially `min`), `mx` the exact
maximum (returned when the walk runs off the end).  A weight-1 centroid
answers with its mean exactly; otherwise the answer interpolates linearly from
the previous mean to this centroid's mean across the centroid's
cumulative-weight interval. -/
def qwalk (t mx : ℚ) : ℚ → ℚ → List Centroid → ℚ
  | _cum, _prev, [] => mx
  | cum, prev, c :: rest =>
      if t ≤ cum + (c.weight : ℚ) then
        if c.weight = 1 then c.mean
        else prev + ((t - cum) / (c.weight : ℚ)) * (c.mean - prev)
      else qwalk t mx (cum + (c.weight : ℚ)) c.mean rest

/-- Modelled from the spec (§4.5): `quantile(digest, q)`; the extremes override
interpolation with the exactly tracked `min` and `max`. -/
def Digest.quantile (d : Digest) (q : ℚ) : ℚ :=
  if q ≤ 0 then d.dmin
  else if 1 ≤ q then d.dmax
  else qwalk (q * (d.total_weight : ℚ)) d.dmax 0 d.dmin d.centroids

/-- Ascending-mean chain: every mean is ≥ the running lower bound `p`. -/
def meansAsc (p : ℚ) : List Centroid → Prop
  | [] => True
  | c :: rest => p ≤ c.mean ∧ meansAsc c.mean rest

/-- The last mean of a centroid list, or `p` when the list is empty. -/
def lastMean (p : ℚ) : List Centroid → ℚ
  | [] => p
  | c :: rest => lastMean c.mean rest

/-!
Codec (§4.6), modelled from the spec: a deterministic, printable, NUL-free
ASCII text — version tag, `compression`, `total_weight`, `min`, `max`,
`centroid_count`, then the centroids in ascending-mean order as `mean:weight`
pairs; `decode` is a strict parser.  The text is modelled as `List Char` over
the ASCII range (one char per byte).
-/

/-- The decimal digit character for `n < 10`. -/
def digitChar (n : ℕ) : Char := Char.ofNat (48 + n)

/-- Whether a character is a decimal digit. -/
def isDigitCh (c : Char) : Bool := 48 ≤ c.toNat && c.toNat ≤ 57

/-- The numeric value of a digit character. -/
def charDigit (c : Char) : ℕ := c.toNat - 48

/-- Decimal rendering worker: peel digits from the low end onto `acc`; `fuel`
bounds the recursion depth (any `fuel > n` is sufficient). -/
def natCharsGo : ℕ → ℕ → List Char → List Char
  | 0, _, acc => acc
  | fuel + 1, n, acc =>
      if n < 10 then digitChar n :: acc
      else natCharsGo fuel (n / 10) (digitChar (n % 10) :: acc)

/-- Decimal rendering of a natural number (most significant digit first). -/
def natChars (n : ℕ) : List Char := natCharsGo (n + 1) n []

/-- Decimal rendering of an integer, with a leading minus sign when negative. -/
def intChars (i : ℤ) : List Char :=
  if i < 0 then '-' :: natChars i.natAbs else natChars i.toNat

/-- Canonical rendering of a rational as `numerator/denominator` (the reduced
form `Rat` maintains). -/
def ratChars (q : ℚ) : List Char := intChars q.num ++ '/' :: natChars q.den

/-- One `mean:weight` centroid pair. -/
def pairChars (c : Centroid) : List Char := ratChars c.mean ++ ':' :: natChars c.weight

/-- Join tokens with a single separator character between consecutive tokens. -/
def joinSep (sep : Char) : List (List Char) → List Char
  | [] => []
  | [t] => t
  | t :: t' :: ts => t ++ sep :: joinSep sep (t' :: ts)

/-- The version tag of the encoding. -/
def versionTag : List Char := ['1']

/-- Modelled from the spec (§4.6): `encode(digest)` — version tag,
`compression`, `total_weight`, `min`, `max`, `centroid_count`, then the
centroid list as `mean:weight` pairs, space-separated. -/
def encode (d : Digest) : List Char :=
  joinSep ' '
    ([versionTag, natChars d.compression, natChars d.total_weight,
      ratChars d.dmin, ratChars d.dmax, natChars d.centroids.length]
     ++ d.centroids.map pairChars)

/-- Split a character list at every occurrence of the separator. -/
def splitCh (sep : Char) : List Char → List (List Char)
  | [] => [[]]
  | c :: cs =>
      if c = sep then [] :: splitCh sep cs
      else
        match splitCh sep cs with
        | [] => [[c]]
        | t :: ts => (c :: t) :: ts

/-- Strict decimal parse of a natural number continuing from `acc`; fails on
any non-digit character. -/
def parseNatFrom (acc : ℕ) : List Char → Option ℕ
  | [] => some acc
  | c :: cs => if isDigitCh c then parseNatFrom (acc * 10 + charDigit c) cs else none

/-- Strict decimal parse of a nonempty digit string. -/
def parseNat (l : List Char) : Option ℕ :=
  match l with
  | [] => none
  | _ :: _ => parseNatFrom 0 l

/-- Strict parse of an optionally minus-signed decimal integer. -/
def parseInt (l : List Char) : Option ℤ :=
  match l with
  | [] => none
  | c :: cs =>
      if c = '-' then (parseNat cs).map (fun n => -(n : ℤ))
      else (parseNat (c :: cs)).map (fun n => (n : ℤ))

/-- Strict parse of a rational rendered as `numerator/denominator`; a zero
denominator is rejected. -/
def parseRat (l : List Char) : Option ℚ :=
  match splitCh '/' l with
  | [a, b] =>
      (parseInt a).bind fun n =>
      (parseNat b).bind fun d =>
      if d = 0 then none else some ((n : ℚ) / (d : ℚ))
  | _ => none

/-- Strict parse of one `mean:weight` pair; a zero weight is rejected
(§4.6: positive weights). -/
def parsePair (l : List Char) : Option Centroid :=
  match splitCh ':' l with
  | [a, b] =>
      (parseRat a).bind fun m =>
      (parseNat b).bind fun w =>
      if w = 0 then none else some ⟨m, w⟩
  | _ => none

/-- Parse every centroid pair, failing if any of them fails. -/
def parseAll : List (List Char) → Option (List Centroid)
  | [] => some []
  | t :: ts => (parsePair t).bind fun c => (parseAll ts).map fun cs => c :: cs

/-- Decidable check that centroid means are strictly ascending. -/
def strictAsc : List Centroid → Bool
  | [] => true
  | [_] => true
  | a :: b :: rest => decide (a.mean < b.mean) && strictAsc (b :: rest)

/-- Modelled from the spec (§4.6): `decode(text)` — strict parse validating the
version tag, every numeric field, strictly ascending means, positive weights
and the exact declared centroid count; any violation fails. -/
def decode (l : List Char) : Option Digest :=
  match splitCh ' ' l with
  | v :: comp :: tw :: mn :: mx :: cnt :: pairs =>
      if v = versionTag then
        (parseNat comp).bind fun δ =>
        (parseNat tw).bind fun W =>
        (parseRat mn).bind fun mnq =>
        (parseRat mx).bind fun mxq =>
        (parseNat cnt).bind fun n =>
        (parseAll pairs).bind fun cs =>
        if n = pairs.length ∧ strictAsc cs = true then
          some ⟨δ, cs, W, mnq, mxq⟩
        else none
      else none
  | _ => none

/-- The integers `1..100` as rationals — the §8 concrete scenario's inputs. -/
def scenarioVals : List ℚ := (List.range 100).map (fun i => mkRat (Int.ofNat (i + 1)) 1)

/-- The 100 singleton centroids `{mean: i, weight: 1}` for `i` in `1..100`. -/
def scenarioCentroids : List Centroid :=
  (List.range 100).map (fun i => Centroid.mk (mkRat (Int.ofNat (i + 1)) 1) 1)

end TD

/-! ## Theorems -/

namespace PyWrap

theorem delStep_snd (s : Wrapper) : (delStep s).2 = live s := by
  unfold delStep live
  split <;> rfl

theorem delStep_fst (s : Wrapper) : (delStep s).1 = s := by
  unfold delStep
  split <;> rfl

theorem run_append (s : Wrapper) (es es' : List Ev) :
    run s (es ++ es') =
      ((run (run s es).1 es').1, (run s es).2 + (run (run s es).1 es').2) := by
  induction es generalizing s with
  | nil => simp [run]
  | cons e es ih =>
    simp [run, ih, Nat.add_assoc]

/-- Along a trace that contains no `__del__` event, the free calls performed
plus the free calls still possible never exceed the free calls that were
possible at the start. -/
theorem run_free_bound (es : List Ev) :
    ∀ s : Wrapper, Ev.del ∉ es → (run s es).2 + live (run s es).1 ≤ live s := by
  induction es with
  | nil =>
    intro s _
    simp [run]
  | cons e es ih =>
    intro s hmem
    have he : e ≠ Ev.del := fun h => hmem (h ▸ List.mem_cons_self e es)
    have hes : Ev.del ∉ es := fun h => hmem (List.mem_cons_of_mem e h)
    have hstep : (step s e).2 + live (step s e).1 ≤ live s := by
      cases e with
      | enter => simp [step, enterStep, live]
      | exit =>
        simp only [step, exitStep, delStep_snd, live]
        split <;> simp
      | del => exact absurd rfl he
      | push => simp [step]
      | build =>
        simp only [step, build]
        cases h : s.pointer with
        | none => simp [live]
        | some p => simp [live]
      | format => simp [step]
    have ihs := ih (step s e).1 hes
    calc (run s (e :: es)).2 + live (run s (e :: es)).1
        = (step s e).2 + ((run (step s e).1 es).2 + live (run (step s e).1 es).1) := by
          simp [run, Nat.add_assoc]
      _ ≤ (step s e).2 + live (step s e).1 := Nat.add_le_add_left ihs _
      _ ≤ live s := hstep

/-- After a trace with no `__enter__` event, a wrapper whose `pointer`
attribute is absent still has it absent: only `__enter__` (tdigest.py:28)
creates the attribute. -/
theorem run_pointer_none (es : List Ev) :
    ∀ s : Wrapper, Ev.enter ∉ es → s.pointer = none → (run s es).1.pointer = none := by
  induction es with
  | nil => intro s _ hp; exact hp
  | cons e es ih =>
    intro s hmem hp
    have he : e ≠ Ev.enter := fun h => hmem (h ▸ List.mem_cons_self e es)
    have hes : Ev.enter ∉ es := fun h => hmem (List.mem_cons_of_mem e h)
    refine ih (step s e).1 hes ?_
    cases e with
    | enter => exact absurd rfl he
    | exit => rfl
    | del =>
      show (delStep s).1.pointer = none
      rw [delStep_fst]
      exact hp
    | push => exact hp
    | build =>
      show (match build s with | .ok (s', _) => (s', 0) | .error _ => (s, 0)).1.pointer = none
      unfold build
      rw [hp]
      exact hp
    | format => exact hp

/-- C2 counterexample: the claim's "any subsequent push or second build fails
with an explicit error" is false of the code.  On a builder consumed by a
successful `build()`, re-entering it with a second `with` statement
(`__enter__`, tdigest.py:28) recreates the `pointer` attribute holding `None`,
after which `push` (line 45) and a second `build` (line 48) raise nothing:
they return successfully, silently forwarding the NULL handle to the native
library. -/
theorem build_consumes_counterexample :
    build (enterStep (initWrapper (some 1))) = .ok (⟨none, none⟩, some 1) ∧
    push (enterStep ⟨none, none⟩) = .ok (enterStep ⟨none, none⟩) ∧
    push (enterStep ⟨none, none⟩) ≠ .error .attributeError ∧
    build (enterStep ⟨none, none⟩) = .ok (⟨none, none⟩, none) ∧
    build (enterStep ⟨none, none⟩) ≠ .error .attributeError := by
  refine ⟨rfl, rfl, ?_, rfl, ?_⟩ <;> intro h <;> simp [push, build, enterStep] at h

/-- C2 amended: `build()` consumes the builder, and the consumed state rejects
every later `push` or second `build` with an explicit `AttributeError`, as
long as the builder is not re-entered by a new `with` statement in between —
re-entering recreates the `pointer` attribute (holding `None`), after which
`push`/`build` silently forward the NULL handle instead of failing. -/
theorem build_consumes (s s' : Wrapper) (p : Option ℕ)
    (h : build s = .ok (s', p)) (es : List Ev) (hes : Ev.enter ∉ es) :
    push (run s' es).1 = .error .attributeError ∧
    build (run s' es).1 = .error .attributeError := by
  have hs' : s'.pointer = none := by
    unfold build at h
    cases hp : s.pointer with
    | none => rw [hp] at h; exact absurd h (by simp)
    | some q =>
      rw [hp] at h
      have := (Except.ok.injEq _ _).mp h
      have h1 : s' = ⟨none, none⟩ :=
        ((Prod.mk.injEq _ _ _ _).mp (congrArg id this)).1.symm
      rw [h1]
  have hnone := run_pointer_none es s' hes hs'
  constructor
  · unfold push
    rw [hnone]
  · unfold build
    rw [hnone]

/-- C2 amended witness: a freshly entered builder builds successfully, and
after a further push attempt, with-block exit and finalization (no re-entry)
both `push` and `build` still raise `AttributeError`. -/
theorem build_consumes_witness :
    push (run ⟨none, none⟩ [Ev.push, Ev.exit, Ev.del]).1 = .error .attributeError ∧
    build (run ⟨none, none⟩ [Ev.push, Ev.exit, Ev.del]).1 = .error .attributeError :=
  build_consumes (enterStep (initWrapper (some 1))) ⟨none, none⟩ (some 1) rfl
    [Ev.push, Ev.exit, Ev.del] (by decide)

/-- C9 counterexample: on a handle whose `__del__` is invoked explicitly inside
the with-block, the with-block exit frees the native pointer a second time
(`__del__` does not clear `real_pointer`), so the native free function is
invoked twice on the same handle — the claim's "at most once under any
interleaving" is false. -/
theorem free_twice_counterexample :
    ¬ (run (initWrapper (some 1)) [Ev.enter, Ev.del, Ev.exit]).2 ≤ 1 := by
  decide

/-- C9 amended: the native free function is invoked at most once per handle
under any interleaving of with-block entry/exit, method calls and a single
final garbage-collection finalization, provided `__del__` is not called
explicitly in between — `__exit__` clears `real_pointer` after its release,
but a bare `__del__` does not, so only the finalizer-at-end discipline is
double-free safe. -/
theorem free_at_most_once (p : Option ℕ) (es : List Ev) (h : Ev.del ∉ es) :
    (run (initWrapper p) es).2 ≤ 1 ∧
    (run (initWrapper p) (es ++ [Ev.del])).2 ≤ 1 := by
  have hb := run_free_bound es (initWrapper p) h
  have hlive : live (initWrapper p) ≤ 1 := by
    unfold live
    split <;> omega
  constructor
  · omega
  · rw [run_append]
    have hdel : (run (run (initWrapper p) es).1 [Ev.del]).2
        = live (run (initWrapper p) es).1 := by
      simp [run, step, delStep_snd]
    omega

/-- C9 amended witness: a normal enter/push/exit lifetime followed by the
garbage-collection finalization frees at most once. -/
theorem free_at_most_once_witness :
    (run (initWrapper (some 1)) [Ev.enter, Ev.push, Ev.exit]).2 ≤ 1 ∧
    (run (initWrapper (some 1)) ([Ev.enter, Ev.push, Ev.exit] ++ [Ev.del])).2 ≤ 1 :=
  free_at_most_once (some 1) [Ev.enter, Ev.push, Ev.exit] (by decide)

/-- C10: on a wrapper that has not been entered (fresh from `__init__`) or that
has just been exited, `push`, `build` and `format_for_postgres` all raise
`AttributeError`: the `pointer` attribute those methods read exists only
between `__enter__` and `__exit__`. -/
theorem methods_require_enter (p : Option ℕ) (s : Wrapper) :
    push (initWrapper p) = .error .attributeError ∧
    build (initWrapper p) = .error .attributeError ∧
    format_for_postgres (initWrapper p) = .error .attributeError ∧
    push (exitStep s).1 = .error .attributeError ∧
    build (exitStep s).1 = .error .attributeError ∧
    format_for_postgres (exitStep s).1 = .error .attributeError :=
  ⟨rfl, rfl, rfl, rfl, rfl, rfl⟩

end PyWrap

namespace TD

set_option maxRecDepth 1000000

/-- C3: `new_builder` rejects `compression == 0` with `InvalidParameter`, and
returns a Builder handle for every positive compression. -/
theorem new_builder_rejects_zero :
    new_builder 0 = .error .invalidParameter ∧
    ∀ c : ℕ, 0 < c → ∃ b : Builder, new_builder c = .ok b := by
  constructor
  · rfl
  · intro c hc
    exact ⟨⟨c, []⟩, by unfold new_builder; rw [if_neg (by omega)]⟩

/-- C3 witness: compression 7 yields a Builder handle. -/
theorem new_builder_rejects_zero_witness : ∃ b : Builder, new_builder 7 = .ok b :=
  new_builder_rejects_zero.2 7 (by omega)

/-- C4: `push` reports `NonFiniteValue` for every non-finite value on every
builder; the error return carries no successor state, so the value is never
absorbed into the buffer. -/
theorem push_rejects_nonfinite (b : Builder) (v : F64) (h : v.isFinite = false) :
    b.push v = .error .nonFiniteValue := by
  cases v with
  | finite q => exact absurd h (by simp [F64.isFinite])
  | nan => rfl
  | posInf => rfl
  | negInf => rfl

/-- C4 witness: pushing NaN on a fresh builder fails with `NonFiniteValue`. -/
theorem push_rejects_nonfinite_witness :
    Builder.push ⟨7, []⟩ F64.nan = .error .nonFiniteValue :=
  push_rejects_nonfinite ⟨7, []⟩ F64.nan rfl

theorem weightSum_mergeGo (δ W : ℕ) :
    ∀ (ps : List Centroid) (cum : ℚ) (cur : Centroid),
      weightSum (mergeGo δ W cum cur ps) = cur.weight + weightSum ps := by
  intro ps
  induction ps with
  | nil => intro cum cur; simp [mergeGo, weightSum]
  | cons p ps ih =>
    intro cum cur
    unfold mergeGo
    split
    · rw [ih]
      simp only [combine, weightSum, List.map_cons, List.sum_cons]
      omega
    · simp only [weightSum, List.map_cons, List.sum_cons] at *
      rw [ih]

theorem weightSum_mergeSorted (δ W : ℕ) (l : List Centroid) :
    weightSum (mergeSorted δ W l) = weightSum l := by
  cases l with
  | nil => rfl
  | cons p ps =>
    show weightSum (mergeGo δ W 0 p ps) = weightSum (p :: ps)
    rw [weightSum_mergeGo]
    simp [weightSum]

theorem weightSum_sortCentroids (l : List Centroid) :
    weightSum (sortCentroids l) = weightSum l := by
  unfold weightSum sortCentroids
  exact List.Perm.sum_eq (List.Perm.map _ (List.perm_insertionSort _ l))

/-- C8: merging adds the source's total weight to the target's, and the pooled
centroid weights are conserved by the compression pass; the model is
functional, so the source digest is left untouched by construction. -/
theorem merge_total_weight (A B : Digest) :
    (A.merge B).total_weight = A.total_weight + B.total_weight ∧
    weightSum (A.merge B).centroids = weightSum A.centroids + weightSum B.centroids := by
  constructor
  · rfl
  · show weightSum (mergeSorted _ _ (sortCentroids (A.centroids ++ B.centroids))) = _
    rw [weightSum_mergeSorted, weightSum_sortCentroids]
    simp [weightSum]

/-- C1: the §8 concrete scenario.  Pushing the integers 1..100 into a builder
with compression 100 accumulates exactly those values; `build()` yields a
digest with compression 100, total weight 100, min 1, max 100 and exactly the
100 singleton centroids `{mean: i, weight: 1}` in ascending order; `encode`
produces the version tag, compression, total weight, min, max, the centroid
count 100, then the 100 `i:1` pairs in order. -/
theorem scenario_push_1_to_100 :
    pushAll (new_builder 100) (scenarioVals.map F64.finite) = .ok ⟨100, scenarioVals⟩ ∧
    (Builder.mk 100 scenarioVals).build.compression = 100 ∧
    (Builder.mk 100 scenarioVals).build.total_weight = 100 ∧
    (Builder.mk 100 scenarioVals).build.dmin = mkRat 1 1 ∧
    (Builder.mk 100 scenarioVals).build.dmax = mkRat 100 1 ∧
    (Builder.mk 100 scenarioVals).build.centroids = scenarioCentroids ∧
    encode (Builder.mk 100 scenarioVals).build
      = joinSep ' ' ([versionTag, natChars 100, natChars 100, ratChars (mkRat 1 1),
          ratChars (mkRat 100 1), natChars 100] ++ scenarioCentroids.map pairChars) := by
  refine ⟨rfl, rfl, by with_unfolding_all rfl, by with_unfolding_all rfl,
    by with_unfolding_all rfl, by with_unfolding_all rfl, by with_unfolding_all rfl⟩

end TD

namespace TD

theorem digitChar_isDigit (n : ℕ) (h : n < 10) : isDigitCh (digitChar n) = true := by
  interval_cases n <;> decide

theorem charDigit_digitChar (n : ℕ) (h : n < 10) : charDigit (digitChar n) = n := by
  interval_cases n <;> decide

theorem natCharsGo_digits (fuel : ℕ) :
    ∀ (n : ℕ) (acc : List Char), (∀ c ∈ acc, isDigitCh c = true) →
      ∀ c ∈ natCharsGo fuel n acc, isDigitCh c = true := by
  induction fuel with
  | zero => intro n acc hacc c hc; exact hacc c hc
  | succ fuel ih =>
    intro n acc hacc c hc
    unfold natCharsGo at hc
    by_cases h : n < 10
    · rw [if_pos h] at hc
      rcases List.mem_cons.mp hc with h1 | h1
      · exact h1 ▸ digitChar_isDigit n h
      · exact hacc c h1
    · rw [if_neg h] at hc
      refine ih (n / 10) _ ?_ c hc
      intro c' hc'
      rcases List.mem_cons.mp hc' with h1 | h1
      · exact h1 ▸ digitChar_isDigit (n % 10) (Nat.mod_lt n (by omega))
      · exact hacc c' h1

theorem natChars_digits (n : ℕ) : ∀ c ∈ natChars n, isDigitCh c = true :=
  natCharsGo_digits (n + 1) n [] (by intro c hc; cases hc)

theorem natCharsGo_ne_nil (fuel : ℕ) :
    ∀ (n : ℕ) (acc : List Char), fuel ≠ 0 ∨ acc ≠ [] → natCharsGo fuel n acc ≠ [] := by
  induction fuel with
  | zero =>
    intro n acc h
    rcases h with h | h
    · exact absurd rfl h
    · exact h
  | succ fuel ih =>
    intro n acc _
    unfold natCharsGo
    by_cases h : n < 10
    · rw [if_pos h]; exact List.cons_ne_nil _ _
    · rw [if_neg h]
      exact ih (n / 10) _ (Or.inr (List.cons_ne_nil _ _))

theorem natChars_ne_nil (n : ℕ) : natChars n ≠ [] :=
  natCharsGo_ne_nil (n + 1) n [] (Or.inl (by omega))

theorem natCharsGo_acc (fuel : ℕ) :
    ∀ (n : ℕ) (acc : List Char), natCharsGo fuel n acc = natCharsGo fuel n [] ++ acc := by
  induction fuel with
  | zero => intro n acc; rfl
  | succ fuel ih =>
    intro n acc
    unfold natCharsGo
    by_cases h : n < 10
    · rw [if_pos h, if_pos h]; rfl
    · rw [if_neg h, if_neg h]
      rw [ih (n / 10) [digitChar (n % 10)], ih (n / 10) (digitChar (n % 10) :: acc)]
      simp

theorem parseNatFrom_append (l1 : List Char) :
    ∀ (l2 : List Char) (acc : ℕ),
      parseNatFrom acc (l1 ++ l2) = (parseNatFrom acc l1).bind (fun a => parseNatFrom a l2) := by
  induction l1 with
  | nil => intro l2 acc; rfl
  | cons c cs ih =>
    intro l2 acc
    simp only [List.cons_append, parseNatFrom, List.append_eq]
    by_cases h : isDigitCh c = true
    · rw [if_pos h, if_pos h, ih]
    · rw [if_neg h, if_neg h]
      rfl

theorem parseNatFrom_natCharsGo (fuel : ℕ) :
    ∀ (n : ℕ), n < fuel → ∀ (a : ℕ),
      parseNatFrom a (natCharsGo fuel n []) =
        some (a * 10 ^ (natCharsGo fuel n []).length + n) := by
  induction fuel with
  | zero => intro n h; omega
  | succ fuel ih =>
    intro n hn a
    by_cases h : n < 10
    · show parseNatFrom a (natCharsGo (fuel + 1) n []) = _
      unfold natCharsGo
      rw [if_pos h]
      unfold parseNatFrom
      rw [if_pos (digitChar_isDigit n h), charDigit_digitChar n h]
      unfold parseNatFrom
      simp
    · have hrec : natCharsGo (fuel + 1) n [] =
          natCharsGo fuel (n / 10) [] ++ [digitChar (n % 10)] := by
        show (if n < 10 then _ else natCharsGo fuel (n / 10) [digitChar (n % 10)]) = _
        rw [if_neg h, natCharsGo_acc]
      have hlt : n / 10 < fuel := by omega
      rw [hrec, parseNatFrom_append, ih (n / 10) hlt a]
      show parseNatFrom _ [digitChar (n % 10)] = _
      unfold parseNatFrom
      rw [if_pos (digitChar_isDigit (n % 10) (Nat.mod_lt n (by omega))),
        charDigit_digitChar (n % 10) (Nat.mod_lt n (by omega))]
      unfold parseNatFrom
      congr 1
      simp [List.length_append, Nat.pow_succ]
      ring_nf
      omega

theorem parseNat_natChars (n : ℕ) : parseNat (natChars n) = some n := by
  have hne := natChars_ne_nil n
  have hparse := parseNatFrom_natCharsGo (n + 1) n (by omega) 0
  cases hl : natChars n with
  | nil => exact absurd hl hne
  | cons c cs =>
    show parseNatFrom 0 (c :: cs) = some n
    rw [← hl]
    show parseNatFrom 0 (natCharsGo (n + 1) n []) = some n
    rw [hparse]
    simp

end TD

namespace TD

theorem isDigit_ne (c : Char) (h : isDigitCh c = true) :
    c ≠ ' ' ∧ c ≠ ':' ∧ c ≠ '/' ∧ c ≠ '-' := by
  refine ⟨?_, ?_, ?_, ?_⟩ <;> intro hc <;> subst hc <;> exact absurd h (by decide)

theorem intChars_charset (i : ℤ) : ∀ c ∈ intChars i, isDigitCh c = true ∨ c = '-' := by
  intro c hc
  unfold intChars at hc
  split at hc
  · rcases List.mem_cons.mp hc with h | h
    · exact Or.inr h
    · exact Or.inl (natChars_digits _ c h)
  · exact Or.inl (natChars_digits _ c hc)

theorem ratChars_charset (q : ℚ) :
    ∀ c ∈ ratChars q, isDigitCh c = true ∨ c = '-' ∨ c = '/' := by
  intro c hc
  rcases List.mem_append.mp hc with h | h
  · rcases intChars_charset q.num c h with h1 | h1
    · exact Or.inl h1
    · exact Or.inr (Or.inl h1)
  · rcases List.mem_cons.mp h with h1 | h1
    · exact Or.inr (Or.inr h1)
    · exact Or.inl (natChars_digits _ c h1)

theorem pairChars_charset (ct : Centroid) :
    ∀ c ∈ pairChars ct, isDigitCh c = true ∨ c = '-' ∨ c = '/' ∨ c = ':' := by
  intro c hc
  rcases List.mem_append.mp hc with h | h
  · rcases ratChars_charset ct.mean c h with h1 | h1 | h1
    · exact Or.inl h1
    · exact Or.inr (Or.inl h1)
    · exact Or.inr (Or.inr (Or.inl h1))
  · rcases List.mem_cons.mp h with h1 | h1
    · exact Or.inr (Or.inr (Or.inr h1))
    · exact Or.inl (natChars_digits _ c h1)

theorem splitCh_sepFree (sep : Char) :
    ∀ l : List Char, (∀ c ∈ l, c ≠ sep) → splitCh sep l = [l] := by
  intro l
  induction l with
  | nil => intro _; rfl
  | cons c cs ih =>
    intro h
    unfold splitCh
    rw [if_neg (h c (List.mem_cons_self c cs))]
    rw [ih (fun u hu => h u (List.mem_cons_of_mem c hu))]

theorem splitCh_append (sep : Char) :
    ∀ (l1 l2 : List Char), (∀ c ∈ l1, c ≠ sep) →
      splitCh sep (l1 ++ sep :: l2) = l1 :: splitCh sep l2 := by
  intro l1
  induction l1 with
  | nil =>
    intro l2 _
    show splitCh sep (sep :: l2) = [] :: splitCh sep l2
    simp only [splitCh]
    simp
  | cons c cs ih =>
    intro l2 h
    show splitCh sep (c :: (cs ++ sep :: l2)) = (c :: cs) :: splitCh sep l2
    simp only [splitCh]
    rw [if_neg (h c (List.mem_cons_self c cs))]
    rw [ih l2 (fun u hu => h u (List.mem_cons_of_mem c hu))]

theorem splitCh_joinSep (sep : Char) :
    ∀ ts : List (List Char), ts ≠ [] →
      (∀ t ∈ ts, ∀ c ∈ t, c ≠ sep) → splitCh sep (joinSep sep ts) = ts := by
  intro ts
  induction ts with
  | nil => intro h _; exact absurd rfl h
  | cons t ts ih =>
    intro _ h
    cases ts with
    | nil =>
      show splitCh sep t = [t]
      exact splitCh_sepFree sep t (h t (List.mem_cons_self t []))
    | cons t' ts' =>
      show splitCh sep (t ++ sep :: joinSep sep (t' :: ts')) = t :: t' :: ts'
      rw [splitCh_append sep t _ (h t (List.mem_cons_self _ _))]
      rw [ih (by simp) (fun u hu c hc => h u (List.mem_cons_of_mem t hu) c hc)]

theorem mem_joinSep (sep : Char) :
    ∀ (ts : List (List Char)) (c : Char),
      c ∈ joinSep sep ts → c = sep ∨ ∃ t ∈ ts, c ∈ t := by
  intro ts
  induction ts with
  | nil => intro c hc; cases hc
  | cons t ts ih =>
    intro c hc
    cases ts with
    | nil => exact Or.inr ⟨t, List.mem_cons_self t [], hc⟩
    | cons t' ts' =>
      have hc' : c ∈ t ++ sep :: joinSep sep (t' :: ts') := hc
      rcases List.mem_append.mp hc' with h1 | h1
      · exact Or.inr ⟨t, List.mem_cons_self _ _, h1⟩
      · rcases List.mem_cons.mp h1 with h2 | h2
        · exact Or.inl h2
        · rcases ih c h2 with h3 | ⟨u, hu, hcu⟩
          · exact Or.inl h3
          · exact Or.inr ⟨u, List.mem_cons_of_mem t hu, hcu⟩

theorem parseInt_intChars (i : ℤ) : parseInt (intChars i) = some i := by
  unfold intChars
  by_cases h : i < 0
  · rw [if_pos h]
    have e : parseInt ('-' :: natChars i.natAbs)
        = (parseNat (natChars i.natAbs)).map (fun n => -(n : ℤ)) := rfl
    rw [e, parseNat_natChars]
    show some (-(i.natAbs : ℤ)) = some i
    congr 1
    omega
  · rw [if_neg h]
    cases hl : natChars i.toNat with
    | nil => exact absurd hl (natChars_ne_nil _)
    | cons c cs =>
      have hd : isDigitCh c = true := natChars_digits _ c (hl ▸ List.mem_cons_self c cs)
      show (if c = '-' then (parseNat cs).map (fun n => -(n : ℤ))
        else (parseNat (c :: cs)).map (fun n => (n : ℤ))) = some i
      rw [if_neg (isDigit_ne c hd).2.2.2, ← hl, parseNat_natChars]
      show some ((i.toNat : ℤ)) = some i
      congr 1
      omega

theorem parseRat_ratChars (q : ℚ) : parseRat (ratChars q) = some q := by
  have hfree1 : ∀ c ∈ intChars q.num, c ≠ '/' := by
    intro c hc
    rcases intChars_charset q.num c hc with h | h
    · exact (isDigit_ne c h).2.2.1
    · subst h; decide
  have hsplit : splitCh '/' (intChars q.num ++ '/' :: natChars q.den)
      = [intChars q.num, natChars q.den] := by
    rw [splitCh_append '/' _ _ hfree1]
    rw [splitCh_sepFree '/' _ (fun c hc => (isDigit_ne c (natChars_digits _ c hc)).2.2.1)]
  have e : parseRat (ratChars q)
      = match splitCh '/' (intChars q.num ++ '/' :: natChars q.den) with
        | [a, b] =>
            (parseInt a).bind fun n =>
            (parseNat b).bind fun d =>
            if d = 0 then none else some ((n : ℚ) / (d : ℚ))
        | _ => none := rfl
  rw [e, hsplit]
  show (parseInt (intChars q.num)).bind (fun n =>
      (parseNat (natChars q.den)).bind fun d =>
      if d = 0 then none else some ((n : ℚ) / (d : ℚ))) = some q
  rw [parseInt_intChars, parseNat_natChars]
  simp only [Option.some_bind]
  rw [if_neg q.den_nz, Rat.num_div_den]

theorem parsePair_pairChars (ct : Centroid) (hw : ct.weight ≠ 0) :
    parsePair (pairChars ct) = some ct := by
  have hfree1 : ∀ c ∈ ratChars ct.mean, c ≠ ':' := by
    intro c hc
    rcases ratChars_charset ct.mean c hc with h | h | h
    · exact (isDigit_ne c h).2.1
    · subst h; decide
    · subst h; decide
  have hsplit : splitCh ':' (ratChars ct.mean ++ ':' :: natChars ct.weight)
      = [ratChars ct.mean, natChars ct.weight] := by
    rw [splitCh_append ':' _ _ hfree1]
    rw [splitCh_sepFree ':' _ (fun c hc => (isDigit_ne c (natChars_digits _ c hc)).2.1)]
  have e : parsePair (pairChars ct)
      = match splitCh ':' (ratChars ct.mean ++ ':' :: natChars ct.weight) with
        | [a, b] =>
            (parseRat a).bind fun m =>
            (parseNat b).bind fun w =>
            if w = 0 then none else some ⟨m, w⟩
        | _ => none := rfl
  rw [e, hsplit]
  show (parseRat (ratChars ct.mean)).bind (fun m =>
      (parseNat (natChars ct.weight)).bind fun w =>
      if w = 0 then none else some ⟨m, w⟩) = some ct
  rw [parseRat_ratChars, parseNat_natChars]
  simp only [Option.some_bind]
  rw [if_neg hw]

theorem parseAll_map (cs : List Centroid) (hw : ∀ ct ∈ cs, ct.weight ≠ 0) :
    parseAll (cs.map pairChars) = some cs := by
  induction cs with
  | nil => rfl
  | cons ct cs ih =>
    show (parsePair (pairChars ct)).bind _ = _
    rw [parsePair_pairChars ct (hw ct (List.mem_cons_self _ _))]
    rw [ih (fun u hu => hw u (List.mem_cons_of_mem _ hu))]
    rfl

theorem tokenChar_printable (c : Char)
    (h : isDigitCh c = true ∨ c = '-' ∨ c = '/' ∨ c = ':') :
    32 ≤ c.toNat ∧ c.toNat ≤ 126 := by
  rcases h with h | h | h | h
  · unfold isDigitCh at h
    simp only [Bool.and_eq_true, decide_eq_true_eq] at h
    omega
  · subst h; decide
  · subst h; decide
  · subst h; decide

end TD

namespace TD

/-- C5: for every digest, `encode` yields printable, NUL-free ASCII text (every
character is in the printable range 0x20–0x7E, so ASCII decoding always
succeeds), and that text is exactly the version tag, `compression`,
`total_weight`, `min`, `max`, `centroid_count`, then the centroids in order as
`mean:weight` pairs. -/
theorem encode_printable_ascii (D : Digest) :
    (∀ c ∈ encode D, 32 ≤ c.toNat ∧ c.toNat ≤ 126) ∧
    encode D = joinSep ' '
      ([versionTag, natChars D.compression, natChars D.total_weight,
        ratChars D.dmin, ratChars D.dmax, natChars D.centroids.length]
       ++ D.centroids.map pairChars) := by
  refine ⟨?_, rfl⟩
  intro c hc
  rcases mem_joinSep ' ' _ c hc with h | ⟨t, ht, hct⟩
  · subst h; exact ⟨by decide, by decide⟩
  · rcases List.mem_append.mp ht with h6 | hpair
    · simp only [List.mem_cons, List.not_mem_nil, or_false] at h6
      rcases h6 with rfl | rfl | rfl | rfl | rfl | rfl
      · rcases List.mem_singleton.mp hct with rfl
        exact ⟨by decide, by decide⟩
      · exact tokenChar_printable c (Or.inl (natChars_digits _ c hct))
      · exact tokenChar_printable c (Or.inl (natChars_digits _ c hct))
      · rcases ratChars_charset _ c hct with h | h | h
        · exact tokenChar_printable c (Or.inl h)
        · exact tokenChar_printable c (Or.inr (Or.inl h))
        · exact tokenChar_printable c (Or.inr (Or.inr (Or.inl h)))
      · rcases ratChars_charset _ c hct with h | h | h
        · exact tokenChar_printable c (Or.inl h)
        · exact tokenChar_printable c (Or.inr (Or.inl h))
        · exact tokenChar_printable c (Or.inr (Or.inr (Or.inl h)))
      · exact tokenChar_printable c (Or.inl (natChars_digits _ c hct))
    · rcases List.mem_map.mp hpair with ⟨ct, _, rfl⟩
      exact tokenChar_printable c (pairChars_charset ct c hct)

theorem encode_token_spaceFree (D : Digest) :
    ∀ t ∈ ([versionTag, natChars D.compression, natChars D.total_weight,
        ratChars D.dmin, ratChars D.dmax, natChars D.centroids.length]
       ++ D.centroids.map pairChars), ∀ c ∈ t, c ≠ ' ' := by
  intro t ht c hct
  rcases List.mem_append.mp ht with h6 | hpair
  · simp only [List.mem_cons, List.not_mem_nil, or_false] at h6
    rcases h6 with rfl | rfl | rfl | rfl | rfl | rfl
    · rcases List.mem_singleton.mp hct with rfl
      decide
    · exact (isDigit_ne c (natChars_digits _ c hct)).1
    · exact (isDigit_ne c (natChars_digits _ c hct)).1
    · rcases ratChars_charset _ c hct with h | h | h
      · exact (isDigit_ne c h).1
      · subst h; decide
      · subst h; decide
    · rcases ratChars_charset _ c hct with h | h | h
      · exact (isDigit_ne c h).1
      · subst h; decide
      · subst h; decide
    · exact (isDigit_ne c (natChars_digits _ c hct)).1
  · rcases List.mem_map.mp hpair with ⟨ct, _, rfl⟩
    rcases pairChars_charset ct c hct with h | h | h | h
    · exact (isDigit_ne c h).1
    · subst h; decide
    · subst h; decide
    · subst h; decide

/-- C6: the encoding is canonical and round-trippable.  For every digest whose
centroids have positive weights and strictly ascending means (the Digest
invariants of §3), `decode (encode D) = some D` — which makes the decoded
digest quantile-equivalent to `D` — and re-encoding the decoded digest
reproduces the original text byte for byte. -/
theorem decode_encode_canonical (D : Digest)
    (hw : ∀ ct ∈ D.centroids, ct.weight ≠ 0)
    (hasc : strictAsc D.centroids = true) :
    decode (encode D) = some D ∧
    (decode (encode D)).map encode = some (encode D) := by
  have hsplit : splitCh ' ' (encode D)
      = versionTag :: natChars D.compression :: natChars D.total_weight ::
        ratChars D.dmin :: ratChars D.dmax :: natChars D.centroids.length ::
        D.centroids.map pairChars := by
    have e : encode D = joinSep ' '
        (versionTag :: natChars D.compression :: natChars D.total_weight ::
         ratChars D.dmin :: ratChars D.dmax :: natChars D.centroids.length ::
         D.centroids.map pairChars) := rfl
    rw [e]
    refine splitCh_joinSep ' ' _ (by simp) ?_
    exact encode_token_spaceFree D
  have h1 : decode (encode D) = some D := by
    have e2 : decode (encode D)
        = match splitCh ' ' (encode D) with
          | v :: comp :: tw :: mn :: mx :: cnt :: pairs =>
              if v = versionTag then
                (parseNat comp).bind fun δ =>
                (parseNat tw).bind fun W =>
                (parseRat mn).bind fun mnq =>
                (parseRat mx).bind fun mxq =>
                (parseNat cnt).bind fun n =>
                (parseAll pairs).bind fun cs =>
                if n = pairs.length ∧ strictAsc cs = true then
                  some ⟨δ, cs, W, mnq, mxq⟩
                else none
              else none
          | _ => none := rfl
    rw [e2, hsplit]
    show (if versionTag = versionTag then
        (parseNat (natChars D.compression)).bind fun δ =>
        (parseNat (natChars D.total_weight)).bind fun W =>
        (parseRat (ratChars D.dmin)).bind fun mnq =>
        (parseRat (ratChars D.dmax)).bind fun mxq =>
        (parseNat (natChars D.centroids.length)).bind fun n =>
        (parseAll (D.centroids.map pairChars)).bind fun cs =>
        if n = (D.centroids.map pairChars).length ∧ strictAsc cs = true then
          some ⟨δ, cs, W, mnq, mxq⟩
        else none
      else none) = some D
    rw [if_pos rfl, parseNat_natChars, parseNat_natChars, parseRat_ratChars,
      parseRat_ratChars, parseNat_natChars, parseAll_map D.centroids hw]
    simp only [Option.some_bind, List.length_map]
    simp [hasc]
  exact ⟨h1, by rw [h1]; rfl⟩

/-- C6 witness: a concrete two-centroid digest round-trips through the codec. -/
theorem decode_encode_canonical_witness :
    decode (encode ⟨5, [⟨mkRat 1 2, 2⟩, ⟨mkRat 3 1, 1⟩], 3, mkRat 1 2, mkRat 3 1⟩)
      = some ⟨5, [⟨mkRat 1 2, 2⟩, ⟨mkRat 3 1, 1⟩], 3, mkRat 1 2, mkRat 3 1⟩ ∧
    (decode (encode ⟨5, [⟨mkRat 1 2, 2⟩, ⟨mkRat 3 1, 1⟩], 3, mkRat 1 2, mkRat 3 1⟩)).map encode
      = some (encode ⟨5, [⟨mkRat 1 2, 2⟩, ⟨mkRat 3 1, 1⟩], 3, mkRat 1 2, mkRat 3 1⟩) :=
  decode_encode_canonical ⟨5, [⟨mkRat 1 2, 2⟩, ⟨mkRat 3 1, 1⟩], 3, mkRat 1 2, mkRat 3 1⟩
    (by with_unfolding_all decide)
    (by with_unfolding_all decide)

end TD

namespace TD

theorem meansAsc_anti (p' p : ℚ) (cs : List Centroid) (h : p' ≤ p)
    (ha : meansAsc p cs) : meansAsc p' cs := by
  cases cs with
  | nil => trivial
  | cons c rest => exact ⟨le_trans h ha.1, ha.2⟩

theorem meansAsc_le_lastMean (cs : List Centroid) :
    ∀ p : ℚ, meansAsc p cs → p ≤ lastMean p cs := by
  induction cs with
  | nil => intro p _; exact le_refl p
  | cons c rest ih =>
    intro p ha
    show p ≤ lastMean c.mean rest
    exact le_trans ha.1 (ih c.mean ha.2)

theorem lastMean_mono (cs : List Centroid) (p' p : ℚ) (h : p' ≤ p) :
    lastMean p' cs ≤ lastMean p cs := by
  cases cs with
  | nil => exact h
  | cons c rest => exact le_refl _

theorem combine_weight (a b : Centroid) : (combine a b).weight = a.weight + b.weight := rfl

theorem combine_mean_bounds (a b : Centroid) (ha : 1 ≤ a.weight) (hb : 1 ≤ b.weight)
    (hab : a.mean ≤ b.mean) :
    a.mean ≤ (combine a b).mean ∧ (combine a b).mean ≤ b.mean := by
  have hwa : (1 : ℚ) ≤ (a.weight : ℚ) := by exact_mod_cast ha
  have hwb : (1 : ℚ) ≤ (b.weight : ℚ) := by exact_mod_cast hb
  have hpos : (0 : ℚ) < (a.weight : ℚ) + (b.weight : ℚ) := by linarith
  constructor
  · show a.mean ≤ (a.mean * (a.weight : ℚ) + b.mean * (b.weight : ℚ)) / ((a.weight : ℚ) + (b.weight : ℚ))
    rw [le_div_iff hpos]
    nlinarith
  · show (a.mean * (a.weight : ℚ) + b.mean * (b.weight : ℚ)) / ((a.weight : ℚ) + (b.weight : ℚ)) ≤ b.mean
    rw [div_le_iff hpos]
    nlinarith

theorem mergeGo_weights (δ W : ℕ) :
    ∀ (ps : List Centroid) (cum : ℚ) (cur : Centroid),
      (∀ c ∈ ps, 1 ≤ c.weight) → 1 ≤ cur.weight →
      ∀ c ∈ mergeGo δ W cum cur ps, 1 ≤ c.weight := by
  intro ps
  induction ps with
  | nil =>
    intro cum cur _ hcur c hc
    rcases List.mem_singleton.mp hc with rfl
    exact hcur
  | cons p ps ih =>
    intro cum cur hps hcur c hc
    unfold mergeGo at hc
    split at hc
    · refine ih cum (combine cur p) (fun u hu => hps u (List.mem_cons_of_mem p hu)) ?_ c hc
      rw [combine_weight]
      omega
    · rcases List.mem_cons.mp hc with rfl | hc2
      · exact hcur
      · exact ih _ p (fun u hu => hps u (List.mem_cons_of_mem p hu))
          (hps p (List.mem_cons_self p ps)) c hc2

theorem mergeGo_meansAsc (δ W : ℕ) :
    ∀ (ps : List Centroid) (cum : ℚ) (cur : Centroid) (lo : ℚ),
      (∀ c ∈ ps, 1 ≤ c.weight) → 1 ≤ cur.weight →
      meansAsc cur.mean ps → lo ≤ cur.mean →
      meansAsc lo (mergeGo δ W cum cur ps) ∧
      lastMean lo (mergeGo δ W cum cur ps) ≤ lastMean cur.mean ps := by
  intro ps
  induction ps with
  | nil =>
    intro cum cur lo _ _ _ hlo
    exact ⟨⟨hlo, trivial⟩, le_refl _⟩
  | cons p ps ih =>
    intro cum cur lo hw hcur hasc hlo
    have hwp : 1 ≤ p.weight := hw p (List.mem_cons_self p ps)
    have hcp : cur.mean ≤ p.mean := hasc.1
    have hw' : ∀ c ∈ ps, 1 ≤ c.weight := fun u hu => hw u (List.mem_cons_of_mem p hu)
    unfold mergeGo
    split
    · -- absorb p into cur
      have hcb := combine_mean_bounds cur p hcur hwp hcp
      have hcw : 1 ≤ (combine cur p).weight := by rw [combine_weight]; omega
      have hasc' : meansAsc (combine cur p).mean ps :=
        meansAsc_anti _ p.mean ps hcb.2 hasc.2
      have hlo' : lo ≤ (combine cur p).mean := le_trans hlo hcb.1
      obtain ⟨h1, h2⟩ := ih cum (combine cur p) lo hw' hcw hasc' hlo'
      refine ⟨h1, le_trans h2 ?_⟩
      show lastMean (combine cur p).mean ps ≤ lastMean p.mean ps
      exact lastMean_mono ps _ _ hcb.2
    · -- start a new centroid at p
      obtain ⟨h1, h2⟩ := ih (cum + (cur.weight : ℚ)) p cur.mean hw' hwp hasc.2 hcp
      exact ⟨⟨hlo, h1⟩, h2⟩

end TD

namespace TD

theorem interp_ge_prev (t cum prev m w : ℚ) (hw : 1 ≤ w) (hcum : cum < t)
    (hpm : prev ≤ m) : prev ≤ prev + ((t - cum) / w) * (m - prev) := by
  have h : (0 : ℚ) ≤ ((t - cum) / w) * (m - prev) :=
    mul_nonneg (div_nonneg (by linarith) (by linarith)) (by linarith)
  linarith

theorem interp_le_mean (t cum prev m w : ℚ) (hw : 1 ≤ w) (hcum : cum < t)
    (hb : t ≤ cum + w) (hpm : prev ≤ m) :
    prev + ((t - cum) / w) * (m - prev) ≤ m := by
  have hwpos : (0 : ℚ) < w := by linarith
  have hfrac : (t - cum) / w ≤ 1 := (div_le_one hwpos).mpr (by linarith)
  have hmp : (0 : ℚ) ≤ m - prev := by linarith
  nlinarith

theorem qwalk_ge (t mx : ℚ) :
    ∀ (cs : List Centroid) (cum prev : ℚ),
      meansAsc prev cs → lastMean prev cs ≤ mx →
      (∀ c ∈ cs, 1 ≤ c.weight) → cum < t →
      prev ≤ qwalk t mx cum prev cs := by
  intro cs
  induction cs with
  | nil =>
    intro cum prev _ h2 _ _
    exact h2
  | cons c rest ih =>
    intro cum prev h1 h2 h3 h4
    have hw : 1 ≤ c.weight := h3 c (List.mem_cons_self c rest)
    have hwq : (1 : ℚ) ≤ (c.weight : ℚ) := by exact_mod_cast hw
    have h2' : lastMean c.mean rest ≤ mx := h2
    have h3' : ∀ u ∈ rest, 1 ≤ u.weight := fun u hu => h3 u (List.mem_cons_of_mem c hu)
    simp only [qwalk]
    by_cases hb : t ≤ cum + (c.weight : ℚ)
    · rw [if_pos hb]
      by_cases h1w : c.weight = 1
      · rw [if_pos h1w]
        exact h1.1
      · rw [if_neg h1w]
        exact interp_ge_prev t cum prev c.mean _ hwq h4 h1.1
    · rw [if_neg hb]
      push_neg at hb
      exact le_trans h1.1 (ih (cum + (c.weight : ℚ)) c.mean h1.2 h2' h3' hb)

theorem qwalk_le (t mx : ℚ) :
    ∀ (cs : List Centroid) (cum prev : ℚ),
      meansAsc prev cs → lastMean prev cs ≤ mx →
      (∀ c ∈ cs, 1 ≤ c.weight) → cum < t →
      qwalk t mx cum prev cs ≤ mx := by
  intro cs
  induction cs with
  | nil =>
    intro cum prev _ _ _ _
    exact le_refl mx
  | cons c rest ih =>
    intro cum prev h1 h2 h3 h4
    have hw : 1 ≤ c.weight := h3 c (List.mem_cons_self c rest)
    have hwq : (1 : ℚ) ≤ (c.weight : ℚ) := by exact_mod_cast hw
    have h2' : lastMean c.mean rest ≤ mx := h2
    have h3' : ∀ u ∈ rest, 1 ≤ u.weight := fun u hu => h3 u (List.mem_cons_of_mem c hu)
    have hme : c.mean ≤ mx := le_trans (meansAsc_le_lastMean rest c.mean h1.2) h2'
    simp only [qwalk]
    by_cases hb : t ≤ cum + (c.weight : ℚ)
    · rw [if_pos hb]
      by_cases h1w : c.weight = 1
      · rw [if_pos h1w]
        exact hme
      · rw [if_neg h1w]
        exact le_trans (interp_le_mean t cum prev c.mean _ hwq h4 hb h1.1) hme
    · rw [if_neg hb]
      push_neg at hb
      exact ih (cum + (c.weight : ℚ)) c.mean h1.2 h2' h3' hb

theorem qwalk_mono (mx : ℚ) :
    ∀ (cs : List Centroid) (cum prev t1 t2 : ℚ),
      t1 ≤ t2 → cum < t1 →
      meansAsc prev cs → lastMean prev cs ≤ mx →
      (∀ c ∈ cs, 1 ≤ c.weight) →
      qwalk t1 mx cum prev cs ≤ qwalk t2 mx cum prev cs := by
  intro cs
  induction cs with
  | nil =>
    intro cum prev t1 t2 _ _ _ _ _
    exact le_refl mx
  | cons c rest ih =>
    intro cum prev t1 t2 h12 hcum h1 h2 h3
    have hw : 1 ≤ c.weight := h3 c (List.mem_cons_self c rest)
    have hwq : (1 : ℚ) ≤ (c.weight : ℚ) := by exact_mod_cast hw
    have h2' : lastMean c.mean rest ≤ mx := h2
    have h3' : ∀ u ∈ rest, 1 ≤ u.weight := fun u hu => h3 u (List.mem_cons_of_mem c hu)
    simp only [qwalk]
    by_cases hb2 : t2 ≤ cum + (c.weight : ℚ)
    · have hb1 : t1 ≤ cum + (c.weight : ℚ) := le_trans h12 hb2
      rw [if_pos hb1, if_pos hb2]
      by_cases h1w : c.weight = 1
      · simp only [if_pos h1w]
        exact le_refl _
      · simp only [if_neg h1w]
        have hwpos : (0 : ℚ) < (c.weight : ℚ) := by linarith
        have hfrac : (t1 - cum) / (c.weight : ℚ) ≤ (t2 - cum) / (c.weight : ℚ) :=
          (div_le_div_right hwpos).mpr (by linarith)
        have hmp : (0 : ℚ) ≤ c.mean - prev := by linarith [h1.1]
        nlinarith [mul_le_mul_of_nonneg_right hfrac hmp]
    · push_neg at hb2
      rw [if_neg (by linarith : ¬ t2 ≤ cum + (c.weight : ℚ))]
      by_cases hb1 : t1 ≤ cum + (c.weight : ℚ)
      · rw [if_pos hb1]
        have hrge : c.mean ≤ qwalk t2 mx (cum + (c.weight : ℚ)) c.mean rest :=
          qwalk_ge t2 mx rest (cum + (c.weight : ℚ)) c.mean h1.2 h2' h3' hb2
        by_cases h1w : c.weight = 1
        · rw [if_pos h1w]
          exact hrge
        · rw [if_neg h1w]
          exact le_trans (interp_le_mean t1 cum prev c.mean _ hwq hcum hb1 h1.1) hrge
      · push_neg at hb1
        rw [if_neg (by linarith : ¬ t1 ≤ cum + (c.weight : ℚ))]
        exact ih (cum + (c.weight : ℚ)) c.mean t1 t2 h12 (by linarith) h1.2 h2' h3'

end TD

namespace TD

theorem meansAsc_of_sorted :
    ∀ (xs : List ℚ) (x : ℚ), List.Sorted (· ≤ ·) (x :: xs) →
      meansAsc x (xs.map (fun v => Centroid.mk v 1)) := by
  intro xs
  induction xs with
  | nil => intro x _; trivial
  | cons y ys ih =>
    intro x hs
    have h1 := List.sorted_cons.mp hs
    refine ⟨h1.1 y (List.mem_cons_self y ys), ?_⟩
    exact ih y h1.2

theorem lastMean_map :
    ∀ (xs : List ℚ) (x p : ℚ),
      lastMean p ((x :: xs).map (fun v => Centroid.mk v 1)) = xs.getLastD x := by
  intro xs
  induction xs with
  | nil => intro x p; rfl
  | cons y ys ih =>
    intro x p
    show lastMean x ((y :: ys).map (fun v => Centroid.mk v 1)) = (y :: ys).getLastD x
    rw [ih y x, List.getLastD_cons]

theorem getLastD_mem : ∀ (xs : List ℚ) (x : ℚ), xs.getLastD x ∈ x :: xs := by
  intro xs
  induction xs with
  | nil => intro x; exact List.mem_singleton.mpr rfl
  | cons y ys ih =>
    intro x
    rw [List.getLastD_cons]
    exact List.mem_cons_of_mem x (ih y)

theorem sorted_le_getLastD :
    ∀ (xs : List ℚ) (x : ℚ), List.Sorted (· ≤ ·) (x :: xs) →
      ∀ v ∈ x :: xs, v ≤ xs.getLastD x := by
  intro xs
  induction xs with
  | nil =>
    intro x _ v hv
    rcases List.mem_singleton.mp hv with rfl
    exact le_refl v
  | cons y ys ih =>
    intro x hs v hv
    have h1 := List.sorted_cons.mp hs
    rw [List.getLastD_cons]
    rcases List.mem_cons.mp hv with rfl | hv2
    · refine le_trans (h1.1 y (List.mem_cons_self y ys)) ?_
      exact ih y h1.2 y (List.mem_cons_self y ys)
    · exact ih y h1.2 v hv2

theorem sortAsc_sorted (l : List ℚ) : List.Sorted (· ≤ ·) (sortAsc l) :=
  List.sorted_insertionSort (· ≤ ·) l

theorem sortAsc_perm (l : List ℚ) : (sortAsc l).Perm l :=
  List.perm_insertionSort (· ≤ ·) l

/-- Everything `quantile` needs about a freshly built digest: ascending means
bounded between the tracked extrema, positive weights, positive total weight,
and the extrema being the exact minimum and maximum of the inputs. -/
theorem build_invariants (δ : ℕ) (vals : List ℚ) (hne : vals ≠ []) :
    meansAsc (Builder.build ⟨δ, vals⟩).dmin (Builder.build ⟨δ, vals⟩).centroids ∧
    lastMean (Builder.build ⟨δ, vals⟩).dmin (Builder.build ⟨δ, vals⟩).centroids
      ≤ (Builder.build ⟨δ, vals⟩).dmax ∧
    (∀ c ∈ (Builder.build ⟨δ, vals⟩).centroids, 1 ≤ c.weight) ∧
    (Builder.build ⟨δ, vals⟩).dmin ≤ (Builder.build ⟨δ, vals⟩).dmax ∧
    1 ≤ (Builder.build ⟨δ, vals⟩).total_weight ∧
    (Builder.build ⟨δ, vals⟩).dmin ∈ vals ∧
    (∀ x ∈ vals, (Builder.build ⟨δ, vals⟩).dmin ≤ x) ∧
    (Builder.build ⟨δ, vals⟩).dmax ∈ vals ∧
    (∀ x ∈ vals, x ≤ (Builder.build ⟨δ, vals⟩).dmax) := by
  cases hs : sortAsc vals with
  | nil =>
    exact absurd (List.Perm.eq_nil (hs ▸ sortAsc_perm vals).symm) hne
  | cons x xs =>
    have hsorted : List.Sorted (· ≤ ·) (x :: xs) := hs ▸ sortAsc_sorted vals
    have hperm : (x :: xs).Perm vals := hs ▸ sortAsc_perm vals
    have hb : Builder.build ⟨δ, vals⟩
        = ⟨δ, mergeSorted δ (x :: xs).length ((x :: xs).map (fun v => Centroid.mk v 1)),
           (x :: xs).length, x, xs.getLastD x⟩ := by
      unfold Builder.build
      simp only [hs]
    rw [hb]
    have hmin_le : ∀ v ∈ x :: xs, x ≤ v := by
      intro v hv
      rcases List.mem_cons.mp hv with rfl | hv2
      · exact le_refl v
      · exact (List.sorted_cons.mp hsorted).1 v hv2
    have hwpts : ∀ c ∈ xs.map (fun v => Centroid.mk v 1), 1 ≤ c.weight := by
      intro c hc
      rcases List.mem_map.mp hc with ⟨v, _, rfl⟩
      exact le_refl 1
    have hGo := mergeGo_meansAsc δ (x :: xs).length (xs.map (fun v => Centroid.mk v 1))
      0 ⟨x, 1⟩ x hwpts (le_refl 1) (meansAsc_of_sorted xs x hsorted) (le_refl x)
    have hW := mergeGo_weights δ (x :: xs).length (xs.map (fun v => Centroid.mk v 1))
      0 ⟨x, 1⟩ hwpts (le_refl 1)
    have hlast : lastMean x (xs.map (fun v => Centroid.mk v 1)) = xs.getLastD x :=
      lastMean_map xs x x
    refine ⟨hGo.1, ?_, hW, ?_, ?_, ?_, ?_, ?_, ?_⟩
    · exact le_of_le_of_eq hGo.2 hlast
    · exact sorted_le_getLastD xs x hsorted x (List.mem_cons_self x xs)
    · show 1 ≤ (x :: xs).length
      simp
    · exact hperm.subset (List.mem_cons_self x xs)
    · intro v hv
      exact hmin_le v (hperm.symm.subset hv)
    · exact hperm.subset (getLastD_mem xs x)
    · intro v hv
      exact sorted_le_getLastD xs x hsorted v (hperm.symm.subset hv)

end TD

namespace TD

/-- C7: for every nonempty finite sequence of pushed values, the built digest's
`quantile(0)` is exactly the minimum of the inputs, `quantile(1)` is exactly
the maximum of the inputs, and `quantile` is monotonic non-decreasing in `q`
(here proved for all rational `q₁ ≤ q₂`, which covers `[0,1]`). -/
theorem quantile_extrema_mono (δ : ℕ) (vals : List ℚ) (hne : vals ≠ []) :
    ((Builder.build ⟨δ, vals⟩).quantile 0 ∈ vals ∧
      ∀ x ∈ vals, (Builder.build ⟨δ, vals⟩).quantile 0 ≤ x) ∧
    ((Builder.build ⟨δ, vals⟩).quantile 1 ∈ vals ∧
      ∀ x ∈ vals, x ≤ (Builder.build ⟨δ, vals⟩).quantile 1) ∧
    (∀ q1 q2 : ℚ, q1 ≤ q2 →
      (Builder.build ⟨δ, vals⟩).quantile q1 ≤ (Builder.build ⟨δ, vals⟩).quantile q2) := by
  obtain ⟨hasc, hlast, hwts, hminmax, hWpos, hmin_mem, hmin_le, hmax_mem, hmax_ge⟩ :=
    build_invariants δ vals hne
  have hWq : (1 : ℚ) ≤ ((Builder.build ⟨δ, vals⟩).total_weight : ℚ) := by exact_mod_cast hWpos
  have hq0 : (Builder.build ⟨δ, vals⟩).quantile 0 = (Builder.build ⟨δ, vals⟩).dmin := by
    unfold Digest.quantile
    rw [if_pos (le_refl 0)]
  have hq1 : (Builder.build ⟨δ, vals⟩).quantile 1 = (Builder.build ⟨δ, vals⟩).dmax := by
    unfold Digest.quantile
    rw [if_neg (by norm_num), if_pos (le_refl 1)]
  refine ⟨⟨hq0 ▸ hmin_mem, fun x hx => hq0 ▸ hmin_le x hx⟩,
          ⟨hq1 ▸ hmax_mem, fun x hx => hq1 ▸ hmax_ge x hx⟩, ?_⟩
  intro q1 q2 h12
  unfold Digest.quantile
  split_ifs with hc1 hc3 hc4 hc2 hc3b hc4b hc3c hc4c
  · exact le_refl _
  · exact hminmax
  · push_neg at hc3
    exact qwalk_ge _ _ _ 0 _ hasc hlast hwts (mul_pos hc3 (by linarith))
  · linarith
  · exact le_refl _
  · push_neg at hc4b
    linarith
  · push_neg at hc1
    linarith
  · push_neg at hc1
    exact qwalk_le _ _ _ 0 _ hasc hlast hwts (mul_pos hc1 (by linarith))
  · push_neg at hc1
    exact qwalk_mono _ _ 0 _ _ _ (mul_le_mul_of_nonneg_right h12 (by linarith))
      (mul_pos hc1 (by linarith)) hasc hlast hwts

end TD

namespace TD

/-- C7 witness: the extrema and monotonicity properties hold for the concrete
input sequence `[2, 1]` at compression 10. -/
theorem quantile_extrema_mono_witness :
    ((Builder.build ⟨10, [mkRat 2 1, mkRat 1 1]⟩).quantile 0 ∈ [mkRat 2 1, mkRat 1 1] ∧
      ∀ x ∈ [mkRat 2 1, mkRat 1 1], (Builder.build ⟨10, [mkRat 2 1, mkRat 1 1]⟩).quantile 0 ≤ x) ∧
    ((Builder.build ⟨10, [mkRat 2 1, mkRat 1 1]⟩).quantile 1 ∈ [mkRat 2 1, mkRat 1 1] ∧
      ∀ x ∈ [mkRat 2 1, mkRat 1 1], x ≤ (Builder.build ⟨10, [mkRat 2 1, mkRat 1 1]⟩).quantile 1) ∧
    (∀ q1 q2 : ℚ, q1 ≤ q2 →
      (Builder.build ⟨10, [mkRat 2 1, mkRat 1 1]⟩).quantile q1
        ≤ (Builder.build ⟨10, [mkRat 2 1, mkRat 1 1]⟩).quantile q2) :=
  quantile_extrema_mono 10 [mkRat 2 1, mkRat 1 1] (List.cons_ne_nil _ _)

end TD

namespace TD

/-- C5 witness: the version-tag character of a concrete encoded digest is
printable ASCII. -/
theorem encode_printable_ascii_witness :
    32 ≤ ('1' : Char).toNat ∧ ('1' : Char).toNat ≤ 126 :=
  (encode_printable_ascii ⟨0, [], 0, 0, 0⟩).1 '1' (by with_unfolding_all decide)

end TD
